import Mathlib

/-!
Shallow embedding of `src/main.py` (zotero2notion): a one-directional sync
script from a Zotero library (source) to a Notion database (mirror).

Modelling conventions:
* Python dicts that act as records become Lean structures; optional dict keys
  become `Option` fields (`none` = key absent).
* The Python dict built by `get_existing_notion_records` is modelled as an
  association list with Python-dict insertion semantics (replace the value of
  an existing key in place, otherwise append).
* Network calls (`notion_client.pages.create` / `pages.update`) are modelled
  by a `NotionCall` datatype; a function that performs calls returns the list
  of calls it would issue, in order.
* `warnings.warn` is modelled by returning the warning messages; `print` by
  returning an optional message.
* The module-level global `notion_db_id` (bound only in the `__main__` block)
  is modelled by `PyEnv.notion_db_id : Option String`; referencing it while
  unbound yields `PyError.nameError`, as in Python.
* `textwrap.shorten(text, 2000)` (default settings) is modelled in full by
  `shorten` below: collapse all whitespace runs to single spaces
  (`' '.join(text.strip().split())`), then `TextWrapper(width, max_lines=1,
  placeholder=" [...]").fill(...)` — chunk the text with the default
  `wordsep_re` (words, eligible single-hyphen break points, em-dash runs,
  whitespace runs; `break_on_hyphens=True`), greedily fill one line, break an
  over-wide chunk with `_handle_long_word` (`break_long_words=True`,
  preferring the last hyphen before the limit), and either return the whole
  text or drop trailing chunks until the placeholder fits, appending it (the
  bare stripped placeholder when nothing fits). The Unicode character
  classes of Python (`\w`, `[^\d\W]`, word punctuation, the several
  whitespace classes) are approximated by their ASCII restrictions via
  `Char.isAlpha`/`Char.isAlphanum`/`Char.isWhitespace`; model and program
  agree on the ASCII inputs these claims concern.
* `dateutil.parser.parse(...).isoformat()` is not formalised (no claim
  concerns the parsed value); it is passed in as an arbitrary total function
  `parseDate : String → String`.
-/

/-- A creator entry of a Zotero record (`record["data"]["creators"][i]`).
Name fields that may be absent from the dict are `Option`s. -/
structure Creator where
  creatorType : String
  name : Option String
  firstName : Option String
  middleName : Option String
  lastName : Option String
deriving DecidableEq

/-- A tag entry of a Zotero record (`record["data"]["tags"][i]`).
`type?` models the optional `"type"` key: Zotero marks automatically added
tags with a `type` field, while manual tags carry no `type` key, so
`type? = none` means the tag has no automatic-origin marker. -/
structure ZTag where
  tag : String
  type? : Option Int
deriving DecidableEq

/-- The `record["data"]` dict of a Zotero record, restricted to the keys the
script reads. `date`, `url` and `abstractNote` are optional keys. -/
structure ZoteroData where
  key : String
  version : Int
  title : String
  extra : String
  date : Option String
  creators : List Creator
  tags : List ZTag
  url : Option String
  abstractNote : Option String
  dateModified : String
  dateAdded : String
deriving DecidableEq

/-- A Zotero API record: the script reads the top-level `"key"` (in
`find_removed_records`), the `"data"` dict, and `links.alternate.href`.
The top-level key and `data.key` are kept as separate fields because the code
reads them at distinct places. -/
structure ZoteroRecord where
  key : String
  data : ZoteroData
  alternateHref : String
deriving DecidableEq

/-- The text annotation flags the script writes on the abstract paragraph
block (all set to `False` in the source). -/
structure TextStyle where
  bold : Bool
  italic : Bool
  strikethrough : Bool
  underline : Bool
  code : Bool
deriving DecidableEq

/-- The all-off style dict the code attaches to the abstract paragraph. -/
def noStyle : TextStyle := ⟨false, false, false, false, false⟩

/-- A Notion content block, restricted to the two shapes the script emits. -/
inductive Block where
  | heading2 (content : String)
  | paragraph (content : String) (style : TextStyle)
deriving DecidableEq

/-- The Notion property payload built by `create_post_objects`, flattened to
the content values. `citationKey`, `publicationDate` and `url` are `Option`s
because the code adds those dict keys only conditionally. -/
structure NotionProperties where
  citationKey : Option String
  title : String
  publicationDate : Option String
  authors : List String
  tags : List String
  zoteroKey : String
  zoteroVersion : Int
  zoteroDateModified : String
  zoteroDateAdded : String
  zoteroLink : String
  url : Option String
deriving DecidableEq

/-- Result of `create_post_objects`: the `properties` dict, the `children`
block list, and the messages passed to `warnings.warn` while mapping. -/
structure MappedRecord where
  properties : NotionProperties
  children : List Block
  warnings : List String
deriving DecidableEq

/-! ### Word-level model of `textwrap.shorten` -/

/-- Splits a character list into maximal runs of non-whitespace characters
(the words of `text.strip().split()` in Python); `acc` holds the current word
reversed. -/
def splitWordsAux : List Char → List Char → List (List Char)
  | [], acc => if acc = [] then [] else [acc.reverse]
  | c :: cs, acc =>
    if c.isWhitespace then
      if acc = [] then splitWordsAux cs [] else acc.reverse :: splitWordsAux cs []
    else splitWordsAux cs (c :: acc)

/-- The whitespace-separated words of a string. -/
def wordsOf (s : String) : List String :=
  (splitWordsAux s.data []).map fun w => String.mk w

/-- Joins words with single spaces (`' '.join` on the split result). -/
def joinWords : List String → String
  | [] => ""
  | [w] => w
  | w :: ws => w ++ " " ++ joinWords ws

/-- The default `textwrap.shorten` placeholder. -/
def textPlaceholder : String := " [...]"

/-!
Chunking: `textwrap`'s default `wordsep_re` (with `break_on_hyphens=True`)
splits the text into whitespace runs, em-dash runs, and word pieces; a word
may be broken after a single hyphen preceded by two letters (or by
letter-hyphen-letter) and followed by letter, optional hyphen, letter; a word
also ends before an em-dash run preceded by word punctuation. After
whitespace collapsing, the whitespace chunks are single spaces and chunking
is word-local (every lookaround that would cross a space fails its character
class), so the chunk list is built word by word below.
-/

/-- The `letter` class `[^\d\W]` of `textwrap.wordsep_re` (word characters
that are not digits), ASCII restriction. -/
def isLetterCh (c : Char) : Bool := c.isAlpha || c = '_'

/-- The `word_punct` class of `textwrap.wordsep_re` (`\w` plus a few
punctuation characters; 34 is the double quote, 39 the apostrophe), ASCII
restriction. -/
def isWordPunct (c : Char) : Bool :=
  c.isAlphanum || c = '_' || c = '!' || c = Char.ofNat 34 || c = Char.ofNat 39
    || c = '&' || c = '.' || c = ',' || c = '?'

/-- The `\w` class, ASCII restriction. -/
def isWordChar (c : Char) : Bool := c.isAlphanum || c = '_'

/-- Length of the maximal run of hyphens starting at index `i` of `w`. -/
def countHyphens (w : List Char) (i : Nat) : Nat :=
  ((w.drop i).takeWhile fun c => c = '-').length

/-- The hyphenated-word break of `wordsep_re` at index `j` of the word `w`:
`w[j]` is a hyphen that the word piece consumes, with lookbehind
`(?<=[lt][lt]-)` or `(?<=[lt]-[lt]-)` and lookahead `(?=[lt]-?[lt])`. -/
def hyphenSplitAt (w : List Char) (j : Nat) : Bool :=
  (w[j]? == some '-') &&
  ((decide (2 ≤ j) && (w[j-1]?).any isLetterCh && (w[j-2]?).any isLetterCh) ||
   (decide (3 ≤ j) && (w[j-1]?).any isLetterCh && (w[j-2]? == some '-')
     && (w[j-3]?).any isLetterCh)) &&
  ((w[j+1]?).any isLetterCh &&
    ((w[j+2]?).any isLetterCh ||
      ((w[j+2]? == some '-') && (w[j+3]?).any isLetterCh)))

/-- The em-dash terminator of a word piece: `(?<=[wp])(?=-{2,}\w)` at index
`j` — the last consumed character is word punctuation and an em-dash run
followed by a word character starts at `j`. -/
def emDashWordEnd (w : List Char) (j : Nat) : Bool :=
  decide (1 ≤ j) && (w[j-1]?).any isWordPunct &&
  decide (2 ≤ countHyphens w j) && (w[j + countHyphens w j]?).any isWordChar

/-- The end of the word piece that started at `j - 1` or earlier: scan from
`j` (at least one character consumed); a qualifying hyphen is consumed into
the piece (`j + 1`), the em-dash terminator ends it before `j`, and the end
of the word ends it (the following character in the full text is a space or
nothing, so `(?=ws|\Z)` holds exactly at `w.length`). The scan advances one
index per step up to `w.length`, so `w.length` steps of fuel suffice from
any start. -/
def chunkEnd (w : List Char) : Nat → Nat → Nat
  | j, 0 => j
  | j, fuel + 1 =>
    if j < w.length then
      if hyphenSplitAt w j then j + 1
      else if emDashWordEnd w j then j
      else chunkEnd w (j + 1) fuel
    else j

/-- The standalone em-dash alternative `(?<=[wp])-{2,}(?=\w)` of
`wordsep_re` at index `s`: the greedy hyphen run of length `k ≥ 2` with word
punctuation before and a word character after (shorter runs cannot match the
lookahead since the next character is another hyphen). -/
def emDashChunkLen (w : List Char) (s : Nat) : Option Nat :=
  let k := countHyphens w s
  if decide (1 ≤ s) && (w[s-1]?).any isWordPunct && decide (2 ≤ k)
      && (w[s+k]?).any isWordChar
  then some k else none

/-- Tiles the word `w` (no whitespace characters) into `wordsep_re` chunks
from index `s`: at each position the em-dash alternative is tried first,
otherwise a word piece runs to `chunkEnd`. Each step consumes at least one
character, so `w.length` steps of fuel suffice. -/
def chunkWordAux (w : List Char) : Nat → Nat → List (List Char)
  | _, 0 => []
  | s, fuel + 1 =>
    if s < w.length then
      match emDashChunkLen w s with
      | some k => (w.drop s).take k :: chunkWordAux w (s + k) fuel
      | none =>
        let e := chunkEnd w (s + 1) w.length
        (w.drop s).take (e - s) :: chunkWordAux w e fuel
    else []

/-- The `wordsep_re` chunks of one whitespace-free word. -/
def chunkWord (w : List Char) : List (List Char) := chunkWordAux w 0 w.length

/-- The chunk list of the whitespace-collapsed text: the chunks of each word
with a single-space chunk between consecutive words. -/
def textChunks : List String → List (List Char)
  | [] => []
  | [w] => chunkWord w.data
  | w :: ws => chunkWord w.data ++ [' '] :: textChunks ws

/-!
Line building: `TextWrapper._wrap_chunks` with `max_lines=1`,
`drop_whitespace=True`, `break_long_words=True`, `break_on_hyphens=True`, no
indents — greedily fill the line, break an over-wide next chunk
(`_handle_long_word`), drop one trailing whitespace chunk, then either accept
the line (everything consumed, up to one trailing whitespace chunk) or drop
chunks from the end until the placeholder fits. The `if lines:` branch of
the placeholder loop and the leading-whitespace drop are unreachable with
`max_lines=1` (they require a previously accepted line, after which at most
one whitespace chunk remains and no further line is produced) and are not
modelled.
-/

/-- Total character count of a chunk list. -/
def lenSum (cs : List (List Char)) : Nat := (cs.map List.length).sum

/-- The greedy fill loop: pop chunks onto the line while the running length
stays within `W`; returns (line chunks, remaining chunks). -/
def fillLine (W : Nat) (acc : Nat) : List (List Char) → List (List Char) × List (List Char)
  | [] => ([], [])
  | c :: cs =>
    if acc + c.length ≤ W then
      let p := fillLine W (acc + c.length) cs
      (c :: p.1, p.2)
    else ([], c :: cs)

/-- `str.rfind('-', 0, n)` as the index of the last hyphen, `none` for -1. -/
def lastHyphen : List Char → Option Nat
  | [] => none
  | c :: cs =>
    match lastHyphen cs with
    | some h => some (h + 1)
    | none => if c = '-' then some 0 else none

/-- `_handle_long_word`'s break position for a chunk longer than the line
width: cut at `spaceLeft`, but prefer the position after the last hyphen
found before `spaceLeft` when some non-hyphen character precedes it. -/
def breakEnd (chunk : List Char) (spaceLeft : Nat) : Nat :=
  if spaceLeft < chunk.length then
    match lastHyphen (chunk.take spaceLeft) with
    | some h =>
      if 0 < h ∧ (chunk.take h).any (fun c => c != '-') then h + 1 else spaceLeft
    | none => spaceLeft
  else spaceLeft

/-- Drop the trailing chunk when it strips to nothing (`drop_whitespace`),
once. -/
def dropTrailingWs (cur : List (List Char)) : List (List Char) :=
  match cur.getLast? with
  | some c => if c.all Char.isWhitespace then cur.dropLast else cur
  | none => cur

/-- The remaining-chunk side of the acceptance test: exactly one chunk left
and it strips to nothing. -/
def lastChunkOnlyWs : List (List Char) → Bool
  | [c] => c.all Char.isWhitespace
  | _ => false

/-- The placeholder drop loop over the reversed line: remove trailing chunks
until the last one has visible content and the line plus the placeholder
fits; `none` when the line empties first. -/
def placeholderDropRev (W : Nat) : List (List Char) → Option (List (List Char))
  | [] => none
  | c :: rest =>
    if (c.any fun ch => !ch.isWhitespace) ∧ lenSum (c :: rest) + textPlaceholder.length ≤ W
    then some (c :: rest)
    else placeholderDropRev W rest

/-- Result of one iteration of the `while chunks` loop: an emitted line, or
the remaining chunks when the line emptied (`if cur_line:` false). -/
inductive WrapStep where
  | line (l : List Char)
  | more (rest : List (List Char))
deriving DecidableEq

/-- `_handle_long_word`: when the next chunk alone exceeds the width, move
its broken head onto the line and push the tail back. -/
def afterLongWord (W : Nat) : List (List Char) × List (List Char) → List (List Char) × List (List Char)
  | (cur, []) => (cur, [])
  | (cur, ch :: rs) =>
    if W < ch.length then
      let spaceLeft := if W < 1 then 1 else W - lenSum cur
      let e := breakEnd ch spaceLeft
      (cur ++ [ch.take e], ch.drop e :: rs)
    else (cur, ch :: rs)

/-- The tail of one loop iteration: drop one trailing whitespace chunk, then
accept the line when everything (up to one trailing whitespace chunk) was
consumed, else run the placeholder drop loop, falling back to the bare
stripped placeholder. -/
def finishLine (W : Nat) (cur0 rest : List (List Char)) : WrapStep :=
  let cur := dropTrailingWs cur0
  if cur = [] then WrapStep.more rest
  else if (rest = [] ∨ lastChunkOnlyWs rest = true) ∧ lenSum cur ≤ W then
    WrapStep.line cur.flatten
  else
    match placeholderDropRev W cur.reverse with
    | some kept => WrapStep.line (kept.reverse.flatten ++ textPlaceholder.data)
    | none => WrapStep.line (("[...]" : String).data)

/-- One iteration of `_wrap_chunks`' `while chunks` loop. -/
def wrapStep (W : Nat) (chunks : List (List Char)) : WrapStep :=
  let p := afterLongWord W (fillLine W 0 chunks)
  finishLine W p.1 p.2

/-- The `while chunks` loop: with `max_lines=1` the first emitted line is
the whole output (an accepted line leaves at most one whitespace chunk,
which produces no further line). Every iteration that emits no line consumes
at least one chunk or character, so `lenSum chunks + chunks.length + 1` fuel
suffices; an empty chunk list yields no lines and `fill` returns the empty
string. -/
def wrapFill (W : Nat) : Nat → List (List Char) → List Char
  | 0, _ => []
  | _ + 1, [] => []
  | fuel + 1, chunks =>
    match wrapStep W chunks with
    | WrapStep.line l => l
    | WrapStep.more rest => wrapFill W fuel rest

/-- `textwrap.shorten(s, width)` with default settings: collapse whitespace,
then fill a single line of the given width with the " [...]" placeholder. -/
def shorten (s : String) (width : Nat) : String :=
  let chunks := textChunks (wordsOf s)
  String.mk (wrapFill width (lenSum chunks + chunks.length + 1) chunks)

/-! ### Citation key extraction (`re.search` of `Citation Key: (\S*)`) -/

/-- The literal part of the citation key pattern. -/
def citekeyMarker : String := "Citation Key: "

/-- Returns the suffix right after the first occurrence of `pat` in the list,
or `none` when `pat` does not occur. Models where `re.search` anchors the
leftmost match of a pattern beginning with this literal. -/
def findAfter (pat : List Char) : List Char → Option (List Char)
  | [] => if pat.isPrefixOf ([] : List Char) then some [] else none
  | c :: cs =>
    if pat.isPrefixOf (c :: cs) then some ((c :: cs).drop pat.length)
    else findAfter pat cs

/-- `re.search(r"Citation Key: (\S*)", extra)`: the pattern matches iff the
literal occurs, and group 1 is the maximal run of non-whitespace characters
right after the first occurrence (`\S*` may match the empty string). -/
def searchCitekey (extra : String) : Option String :=
  (findAfter citekeyMarker.data extra.data).map fun rest =>
    String.mk (rest.takeWhile fun c => !c.isWhitespace)

/-! ### Field mapping (`create_post_objects`) -/

/-- The author label built for one creator: concatenate the present fields in
the order `name`, `firstName`, `middleName`, `lastName`, appending a space
after each present part except `lastName`. -/
def authorName (c : Creator) : String :=
  (match c.name with | some s => s ++ " " | none => "")
    ++ (match c.firstName with | some s => s ++ " " | none => "")
    ++ (match c.middleName with | some s => s ++ " " | none => "")
    ++ (match c.lastName with | some s => s | none => "")

/-- The `Authors` multi-select: the loop over `creators` keeping entries with
`creatorType == "author"`. -/
def mapAuthors (cs : List Creator) : List String :=
  cs.foldl (fun authors c =>
    if c.creatorType = "author" then authors ++ [authorName c] else authors) []

/-- The `Tags` multi-select: the loop over `tags` keeping tags that have no
`"type"` key and whose text is neither `"_tablet"` nor `"_tablet_modified"`. -/
def mapTags (ts : List ZTag) : List String :=
  ts.foldl (fun tags t =>
    if t.type? = none ∧ t.tag ≠ "_tablet" ∧ t.tag ≠ "_tablet_modified" then
      tags ++ [t.tag]
    else tags) []

/-- `create_post_objects(record)`: builds the Notion properties, the children
blocks, and the warning messages emitted. `parseDate` stands for
`dateutil.parser.parse(...).isoformat()`. -/
def create_post_objects (parseDate : String → String) (record : ZoteroRecord) :
    MappedRecord :=
  let rd := record.data
  let citekey := searchCitekey rd.extra
  let warns :=
    match citekey with
    | some _ => []
    | none => ["Could not retrieve citation key for entry with title " ++ rd.title]
  let props : NotionProperties :=
    { citationKey := citekey
      title := rd.title
      publicationDate :=
        match rd.date with
        | some d => if d ≠ "" then some (parseDate d) else none
        | none => none
      authors := mapAuthors rd.creators
      tags := mapTags rd.tags
      zoteroKey := rd.key
      zoteroVersion := rd.version
      zoteroDateModified := rd.dateModified
      zoteroDateAdded := rd.dateAdded
      zoteroLink := record.alternateHref
      url :=
        match rd.url with
        | some u => if u ≠ "" then some u else none
        | none => none }
  let children : List Block :=
    match rd.abstractNote with
    | none => []
    | some ab => [Block.heading2 "Abstract", Block.paragraph (shorten ab 2000) noStyle]
  ⟨props, children, warns⟩

/-! ### Mirror index (`get_existing_notion_records`) -/

/-- A Notion page as the script reads it: `record["id"]`, the `Zotero: Key`
rich text content, and the `Zotero: Version` number. -/
structure NotionPage where
  id : String
  zoteroKey : String
  zoteroVersion : Int
deriving DecidableEq

/-- The value stored in the mirror index: `{"page_id": ..., "version": ...}`. -/
structure NotionEntry where
  page_id : String
  version : Int
deriving DecidableEq

/-- The mirror index, a Python dict modelled as an association list. -/
abbrev NotionDict := List (String × NotionEntry)

/-- Python dict assignment `d[k] = v`: replace the value of an existing key in
place, otherwise append the new binding. -/
def dictInsert : NotionDict → String → NotionEntry → NotionDict
  | [], k, v => [(k, v)]
  | p :: d, k, v => if p.1 = k then (k, v) :: d else p :: dictInsert d k v

/-- Python dict lookup `d[k]` / membership `k in d` (as an `Option`). -/
def dictFind (d : NotionDict) (k : String) : Option NotionEntry :=
  (d.find? fun p => p.1 = k).map fun p => p.2

/-- `get_existing_notion_records(notion_records)`: one dict assignment per
Notion page, keyed by the page's Zotero key. -/
def get_existing_notion_records (notion_records : List NotionPage) : NotionDict :=
  notion_records.foldl
    (fun existing r => dictInsert existing r.zoteroKey ⟨r.id, r.zoteroVersion⟩) []

/-! ### Notion API calls -/

/-- Either the full property payload of `create_post_objects` or the
Tags-only payload sent by the deletion-flagging pass. -/
inductive UpdatePayload where
  | fullProps (props : NotionProperties)
  | tagsOnly (tags : List String)
deriving DecidableEq

/-- One call against the mirror service. `pagesUpdate` carries the optional
`icon` argument and an optional children list (the page-content part of the
API); `pagesArchive` is the API's page-removal operation (the `archived`
flag), modelled so that "never deletes a page" is expressible — the script
never emits it. -/
inductive NotionCall where
  | pagesCreate (parent_db : String) (properties : NotionProperties)
      (children : List Block)
  | pagesUpdate (page_id : String) (payload : UpdatePayload)
      (icon : Option String) (children : Option (List Block))
  | pagesArchive (page_id : String)
deriving DecidableEq

/-- The sentinel tag written on mirror pages whose source record is gone. -/
def sentinelTag : String := "Deleted from Zotero"

/-- The emoji icon set on flagged pages. -/
def crossIcon : String := "❌"

/-- The end-of-run report printed when some pages were flagged. -/
def removalReport (deleted : List String) : String :=
  "Records to be manually deleted from Notion: " ++ String.intercalate ", " deleted
    ++ " (marked by icon " ++ crossIcon ++ " and tagged \"" ++ sentinelTag ++ "\")"

/-- `find_removed_records(notion_client, zotero_records, existing_records)`:
for every index entry whose key is not among the top-level keys of the Zotero
records, append the key to `deleted_records` and issue a Tags-plus-icon
update; finally print the report when `deleted_records` is nonempty. Returns
(calls issued, flagged keys, printed report). -/
def find_removed_records (zotero_records : List ZoteroRecord)
    (existing_records : NotionDict) :
    List NotionCall × List String × Option String :=
  let keys_in_zotero := zotero_records.map fun r => r.key
  let (calls, deleted_records) :=
    existing_records.foldl
      (fun acc p =>
        if p.1 ∈ keys_in_zotero then acc
        else
          (acc.1 ++ [NotionCall.pagesUpdate p.2.page_id
              (UpdatePayload.tagsOnly [sentinelTag]) (some crossIcon) none],
           acc.2 ++ [p.1]))
      ([], [])
  (calls, deleted_records,
    if deleted_records = [] then none else some (removalReport deleted_records))

/-! ### The reconciliation loop (`process_records`) -/

/-- The module-level Python environment: `notion_db_id` is bound (to the
configured database id) only when the file runs as `__main__`; when the
module is merely imported it is unbound (`none`). -/
structure PyEnv where
  notion_db_id : Option String
deriving DecidableEq

/-- A Python exception the embedded code can raise. -/
inductive PyError where
  | nameError (name : String)
deriving DecidableEq

/-- The create / update / no-op decision of the reconciliation loop. -/
inductive SyncAction where
  | create
  | update
  | noop
deriving DecidableEq

/-- The decision taken for one source record: create when its key is absent
from the index, update when present with a differing version, no-op
otherwise. -/
def decideAction (existing : NotionDict) (rd : ZoteroData) : SyncAction :=
  match dictFind existing rd.key with
  | none => SyncAction.create
  | some e => if rd.version ≠ e.version then SyncAction.update else SyncAction.noop

/-- The body of the `process_records` loop for one Zotero record: create when
the key is absent (referencing the global `notion_db_id`, a `NameError` when
unbound), update (properties only) when the version differs, nothing
otherwise. -/
def processOne (env : PyEnv) (parseDate : String → String)
    (existing : NotionDict) (record : ZoteroRecord) :
    Except PyError (List NotionCall) :=
  match dictFind existing record.data.key with
  | none =>
    let mapped := create_post_objects parseDate record
    match env.notion_db_id with
    | none => Except.error (PyError.nameError "notion_db_id")
    | some db =>
      Except.ok [NotionCall.pagesCreate db mapped.properties mapped.children]
  | some e =>
    if record.data.version ≠ e.version then
      let mapped := create_post_objects parseDate record
      Except.ok [NotionCall.pagesUpdate e.page_id
        (UpdatePayload.fullProps mapped.properties) none none]
    else Except.ok []

/-- The reconciliation loop over the Zotero records, stopping at the first
raised exception (as an uncaught Python exception would). -/
def reconcile (env : PyEnv) (parseDate : String → String)
    (existing : NotionDict) : List ZoteroRecord → Except PyError (List NotionCall)
  | [] => Except.ok []
  | r :: rs => do
    let calls ← processOne env parseDate existing r
    let rest ← reconcile env parseDate existing rs
    pure (calls ++ rest)

/-- `process_records(zotero_records, notion_records, notion_client)`: build
the index, run the reconciliation loop, then the deletion-flagging pass.
Returns (all calls in order, flagged keys, printed report). -/
def process_records (env : PyEnv) (parseDate : String → String)
    (zotero_records : List ZoteroRecord) (notion_records : List NotionPage) :
    Except PyError (List NotionCall × List String × Option String) :=
  let existing := get_existing_notion_records notion_records
  match reconcile env parseDate existing zotero_records with
  | Except.error e => Except.error e
  | Except.ok calls =>
    let (flagCalls, deleted, report) := find_removed_records zotero_records existing
    Except.ok (calls ++ flagCalls, deleted, report)

/-! ### Helper lemmas -/

theorem mapTags_foldl (ts : List ZTag) (acc : List String) :
    ts.foldl (fun tags t =>
        if t.type? = none ∧ t.tag ≠ "_tablet" ∧ t.tag ≠ "_tablet_modified" then
          tags ++ [t.tag]
        else tags) acc
      = acc ++ ((ts.filter fun t =>
          t.type? = none ∧ t.tag ≠ "_tablet" ∧ t.tag ≠ "_tablet_modified").map
            fun t => t.tag) := by
  induction ts generalizing acc with
  | nil => simp
  | cons t ts ih =>
    by_cases h : t.type? = none ∧ t.tag ≠ "_tablet" ∧ t.tag ≠ "_tablet_modified" <;>
      simp [List.filter_cons, h, ih]

theorem dictFind_dictInsert (d : NotionDict) (k k' : String) (v : NotionEntry) :
    dictFind (dictInsert d k v) k' = if k' = k then some v else dictFind d k' := by
  induction d with
  | nil =>
    simp only [dictInsert, dictFind, List.find?]
    by_cases h : k' = k
    · simp [h]
    · simp [h, Ne.symm h]
  | cons p d ih =>
    simp only [dictInsert]
    by_cases hpk : p.1 = k
    · by_cases h : k' = k
      · simp_all [dictFind, List.find?_cons]
      · simp_all [dictFind, List.find?_cons, Ne.symm h]
    · by_cases hpk' : p.1 = k'
      · by_cases h : k' = k
        · simp_all [dictFind, List.find?_cons]
        · simp_all [dictFind, List.find?_cons, Ne.symm h]
      · by_cases h : k' = k
        · simp_all [dictFind, List.find?_cons]
        · simp_all [dictFind, List.find?_cons, Ne.symm h]

theorem get_existing_foldl (ns : List NotionPage) (d : NotionDict) (k : String) :
    dictFind
        (ns.foldl (fun existing r => dictInsert existing r.zoteroKey ⟨r.id, r.zoteroVersion⟩) d) k
      = match ns.reverse.find? fun p => p.zoteroKey = k with
        | some p => some ⟨p.id, p.zoteroVersion⟩
        | none => dictFind d k := by
  induction ns generalizing d with
  | nil => simp
  | cons r ns ih =>
    simp only [List.foldl_cons, List.reverse_cons, List.find?_append, ih,
      dictFind_dictInsert]
    cases hfind : ns.reverse.find? fun p => p.zoteroKey = k with
    | some p => simp [Option.or]
    | none =>
      by_cases h : r.zoteroKey = k
      · simp [Option.or, List.find?_cons, h]
      · simp [Option.or, List.find?_cons, h, Ne.symm h]

theorem find_removed_foldl (keys : List String) (d : NotionDict)
    (calls : List NotionCall) (deleted : List String) :
    d.foldl
        (fun acc p =>
          if p.1 ∈ keys then acc
          else
            (acc.1 ++ [NotionCall.pagesUpdate p.2.page_id
                (UpdatePayload.tagsOnly [sentinelTag]) (some crossIcon) none],
             acc.2 ++ [p.1]))
        (calls, deleted)
      = (calls ++ ((d.filter fun p => p.1 ∉ keys).map fun p =>
            NotionCall.pagesUpdate p.2.page_id
              (UpdatePayload.tagsOnly [sentinelTag]) (some crossIcon) none),
         deleted ++ ((d.filter fun p => p.1 ∉ keys).map fun p => p.1)) := by
  induction d generalizing calls deleted with
  | nil => simp
  | cons p d ih =>
    by_cases h : p.1 ∈ keys <;>
      simp [List.filter_cons, h, ih]

/-- C4: a tag of the source record appears in the mapped `Tags` output iff it
carries no automatic-origin marker (no `"type"` key) and its text is neither
`"_tablet"` nor `"_tablet_modified"`: the loop output equals the filtered
texts, every tag satisfying the condition contributes its text, and every
emitted text comes from some tag satisfying the condition. -/
theorem tag_filtering (ts : List ZTag) :
    (mapTags ts
        = (ts.filter fun t =>
            t.type? = none ∧ t.tag ≠ "_tablet" ∧ t.tag ≠ "_tablet_modified").map
              fun t => t.tag) ∧
    (∀ t ∈ ts,
      (t.type? = none ∧ t.tag ≠ "_tablet" ∧ t.tag ≠ "_tablet_modified") →
        t.tag ∈ mapTags ts) ∧
    (∀ s ∈ mapTags ts, ∃ t ∈ ts,
      t.tag = s ∧ t.type? = none ∧ t.tag ≠ "_tablet" ∧ t.tag ≠ "_tablet_modified") := by
  have heq := mapTags_foldl ts []
  refine ⟨heq, ?_, ?_⟩
  · intro t ht hcond
    rw [show mapTags ts = _ from heq]
    simp only [List.nil_append, List.mem_map, List.mem_filter]
    exact ⟨t, ⟨ht, by simpa using hcond⟩, rfl⟩
  · intro s hs
    rw [show mapTags ts = _ from heq] at hs
    simp only [List.nil_append, List.mem_map, List.mem_filter] at hs
    obtain ⟨t, ⟨ht, hcond⟩, rfl⟩ := hs
    exact ⟨t, ht, rfl, by simpa using hcond⟩

/-- C4 witness: a concrete instantiation of the filtering theorem. -/
theorem tag_filtering_witness :
    mapTags [⟨"keep", none⟩, ⟨"_tablet", none⟩, ⟨"auto", some 1⟩] = ["keep"] := by
  have h := (tag_filtering [⟨"keep", none⟩, ⟨"_tablet", none⟩, ⟨"auto", some 1⟩]).1
  rw [h]
  rfl

/-- C10: `get_existing_notion_records` is total (it raises nothing) and maps
each key to the `{page_id, version}` of the last input page carrying that
key; with duplicated keys, earlier pages are silently overwritten and the
uniqueness violation is not detected. -/
theorem index_last_page_wins (ns : List NotionPage) (k : String) :
    dictFind (get_existing_notion_records ns) k
      = (ns.reverse.find? fun p => p.zoteroKey = k).map fun p =>
          (⟨p.id, p.zoteroVersion⟩ : NotionEntry) := by
  rw [get_existing_notion_records, get_existing_foldl ns [] k]
  cases ns.reverse.find? fun p => p.zoteroKey = k <;>
    simp [dictFind]

/-- C3: the deletion-flagging pass issues, for each index entry whose key is
absent from the top-level keys of the Zotero records, exactly one update that
replaces `Tags` with the single sentinel tag and sets the emoji icon; every
call it issues is such an update (in particular no page is archived or
removed), and when any key is flagged the full flagged-key list is reported. -/
theorem removed_records_flagged (zs : List ZoteroRecord) (d : NotionDict) :
    ((find_removed_records zs d).1
        = (d.filter fun p => p.1 ∉ zs.map fun r => r.key).map fun p =>
            NotionCall.pagesUpdate p.2.page_id
              (UpdatePayload.tagsOnly [sentinelTag]) (some crossIcon) none) ∧
    ((find_removed_records zs d).2.1
        = (d.filter fun p => p.1 ∉ zs.map fun r => r.key).map fun p => p.1) ∧
    (∀ c ∈ (find_removed_records zs d).1,
      ∃ pid, c = NotionCall.pagesUpdate pid
        (UpdatePayload.tagsOnly [sentinelTag]) (some crossIcon) none) ∧
    ((find_removed_records zs d).2.1 ≠ [] →
      (find_removed_records zs d).2.2
        = some (removalReport (find_removed_records zs d).2.1)) := by
  have h := find_removed_foldl (zs.map fun r => r.key) d [] []
  have hdef : find_removed_records zs d
      = (((d.filter fun p => p.1 ∉ zs.map fun r => r.key).map fun p =>
            NotionCall.pagesUpdate p.2.page_id
              (UpdatePayload.tagsOnly [sentinelTag]) (some crossIcon) none),
         ((d.filter fun p => p.1 ∉ zs.map fun r => r.key).map fun p => p.1),
         (if ((d.filter fun p => p.1 ∉ zs.map fun r => r.key).map fun p => p.1) = []
          then none
          else some (removalReport
            ((d.filter fun p => p.1 ∉ zs.map fun r => r.key).map fun p => p.1)))) := by
    rw [find_removed_records, h]
    simp
  refine ⟨by rw [hdef], by rw [hdef], ?_, ?_⟩
  · intro c hc
    rw [hdef] at hc
    simp only [List.mem_map] at hc
    obtain ⟨p, _, rfl⟩ := hc
    exact ⟨p.2.page_id, rfl⟩
  · intro hne
    rw [hdef] at hne ⊢
    simp only at hne ⊢
    rw [if_neg hne]

/-- C3 witness: with no Zotero records and one indexed page, the page is
flagged and reported. -/
theorem removed_records_flagged_witness :
    (find_removed_records [] [("k", ⟨"p", 1⟩)]).2.2
      = some (removalReport ["k"]) := by
  have h := (removed_records_flagged [] [("k", ⟨"p", 1⟩)]).2.2.2
  have h1 : (find_removed_records [] [("k", ⟨"p", 1⟩)]).2.1 = ["k"] := rfl
  rw [h1] at h
  exact h (by decide)

/-- A sample fully-specified Zotero data dict used by concrete witnesses. -/
def sampleData : ZoteroData :=
  { key := "k1", version := 3, title := "T", extra := "Citation Key: smith2020",
    date := none, creators := [], tags := [], url := none, abstractNote := none,
    dateModified := "2020-01-02", dateAdded := "2020-01-01" }

/-- A sample Zotero record used by concrete witnesses. -/
def sampleRecord : ZoteroRecord := ⟨"k1", sampleData, "href"⟩

/-- C1: the reconciliation decision for a source record is a partition —
create iff its key is absent from the index, update iff present with a
differing version, no-op iff present with an equal version; the decision
depends only on presence and version equality (any index/record pair agreeing
on those two observations gets the same decision); and `processOne` issues
exactly the corresponding call on each branch. -/
theorem reconcile_decision_partition (existing : NotionDict) (r : ZoteroRecord)
    (env : PyEnv) (db : String) (parseDate : String → String)
    (hdb : env.notion_db_id = some db) :
    (decideAction existing r.data = SyncAction.create ↔
      dictFind existing r.data.key = none) ∧
    (decideAction existing r.data = SyncAction.update ↔
      ∃ e, dictFind existing r.data.key = some e ∧ r.data.version ≠ e.version) ∧
    (decideAction existing r.data = SyncAction.noop ↔
      ∃ e, dictFind existing r.data.key = some e ∧ r.data.version = e.version) ∧
    (∀ (existing₂ : NotionDict) (r₂ : ZoteroRecord),
      (dictFind existing r.data.key = none ↔ dictFind existing₂ r₂.data.key = none) →
      (∀ e e₂, dictFind existing r.data.key = some e →
        dictFind existing₂ r₂.data.key = some e₂ →
        (r.data.version = e.version ↔ r₂.data.version = e₂.version)) →
      decideAction existing r.data = decideAction existing₂ r₂.data) ∧
    (dictFind existing r.data.key = none →
      processOne env parseDate existing r = Except.ok
        [NotionCall.pagesCreate db (create_post_objects parseDate r).properties
          (create_post_objects parseDate r).children]) ∧
    (∀ e, dictFind existing r.data.key = some e → r.data.version ≠ e.version →
      processOne env parseDate existing r = Except.ok
        [NotionCall.pagesUpdate e.page_id
          (UpdatePayload.fullProps (create_post_objects parseDate r).properties)
          none none]) ∧
    (∀ e, dictFind existing r.data.key = some e → r.data.version = e.version →
      processOne env parseDate existing r = Except.ok []) := by
  cases hfind : dictFind existing r.data.key with
  | none =>
    refine ⟨by simp [decideAction, hfind], by simp [decideAction, hfind],
      by simp [decideAction, hfind], ?_, ?_, ?_, ?_⟩
    · intro existing₂ r₂ hnone _
      have h₂ : dictFind existing₂ r₂.data.key = none := hnone.mp rfl
      simp [decideAction, hfind, h₂]
    · intro _
      simp [processOne, hfind, hdb]
    · intro e he
      exact absurd he (by simp)
    · intro e he
      exact absurd he (by simp)
  | some e =>
    by_cases hv : r.data.version = e.version
    · refine ⟨by simp [decideAction, hfind, hv], by simp [decideAction, hfind, hv],
        by simp [decideAction, hfind, hv], ?_, ?_, ?_, ?_⟩
      · intro existing₂ r₂ hnone hver
        cases hfind₂ : dictFind existing₂ r₂.data.key with
        | none => exact absurd (hnone.mpr hfind₂) (by simp)
        | some e₂ =>
          have hv₂ : r₂.data.version = e₂.version :=
            (hver e e₂ rfl hfind₂).mp hv
          simp [decideAction, hfind, hfind₂, hv, hv₂]
      · intro h
        exact absurd h (by simp)
      · intro e' he' hv'
        injection he' with h
        subst h
        exact absurd hv hv'
      · intro e' he' _
        injection he' with h
        subst h
        simp [processOne, hfind, hv]
    · refine ⟨by simp [decideAction, hfind, hv], by simp [decideAction, hfind, hv],
        by simp [decideAction, hfind, hv], ?_, ?_, ?_, ?_⟩
      · intro existing₂ r₂ hnone hver
        cases hfind₂ : dictFind existing₂ r₂.data.key with
        | none => exact absurd (hnone.mpr hfind₂) (by simp)
        | some e₂ =>
          have hv₂ : ¬ r₂.data.version = e₂.version :=
            fun h => hv ((hver e e₂ rfl hfind₂).mpr h)
          simp [decideAction, hfind, hfind₂, hv, hv₂]
      · intro h
        exact absurd h (by simp)
      · intro e' he' _
        injection he' with h
        subst h
        simp [processOne, hfind, hv]
      · intro e' he' hv'
        injection he' with h
        subst h
        exact absurd hv' hv
/-- C1 witness: with an empty index the decision is create and `processOne`
issues the create call. -/
theorem reconcile_decision_partition_witness :
    decideAction [] sampleRecord.data = SyncAction.create ∧
    processOne ⟨some "db"⟩ id [] sampleRecord = Except.ok
      [NotionCall.pagesCreate "db" (create_post_objects id sampleRecord).properties
        (create_post_objects id sampleRecord).children] := by
  have h := reconcile_decision_partition [] sampleRecord ⟨some "db"⟩ "db" id rfl
  exact ⟨h.1.mpr rfl, h.2.2.2.2.1 rfl⟩

/-- C7: on the update branch (key present, version differs) the call sent to
the mirror service carries only the property set: the children blocks
produced by `create_post_objects` are dropped (`children = none` on the
update call), so the page's existing content blocks are left unchanged. -/
theorem update_sends_properties_only (env : PyEnv) (parseDate : String → String)
    (existing : NotionDict) (r : ZoteroRecord) (e : NotionEntry)
    (hfound : dictFind existing r.data.key = some e)
    (hver : r.data.version ≠ e.version) :
    processOne env parseDate existing r
      = Except.ok [NotionCall.pagesUpdate e.page_id
          (UpdatePayload.fullProps (create_post_objects parseDate r).properties)
          none none] := by
  simp [processOne, hfound, hver]

/-- C7 witness: a stale indexed record triggers exactly the properties-only
update call. -/
theorem update_sends_properties_only_witness :
    processOne ⟨some "db"⟩ id [("k1", ⟨"p1", 2⟩)] sampleRecord
      = Except.ok [NotionCall.pagesUpdate "p1"
          (UpdatePayload.fullProps (create_post_objects id sampleRecord).properties)
          none none] :=
  update_sends_properties_only ⟨some "db"⟩ id [("k1", ⟨"p1", 2⟩)] sampleRecord
    ⟨"p1", 2⟩ rfl (by decide)

theorem reconcile_unbound_db (parseDate : String → String) (existing : NotionDict) :
    ∀ zs : List ZoteroRecord,
      (∃ r ∈ zs, dictFind existing r.data.key = none) →
      reconcile ⟨none⟩ parseDate existing zs
        = Except.error (PyError.nameError "notion_db_id")
  | [], h => by simp at h
  | r :: rs, h => by
    rcases h with ⟨r', hr', hfind⟩
    rcases List.mem_cons.mp hr' with rfl | hmem
    · have hp : processOne ⟨none⟩ parseDate existing r'
          = Except.error (PyError.nameError "notion_db_id") := by
        simp [processOne, hfind]
      simp only [reconcile]
      rw [hp]
      rfl
    · cases hfind0 : dictFind existing r.data.key with
      | none =>
        have hp : processOne ⟨none⟩ parseDate existing r
            = Except.error (PyError.nameError "notion_db_id") := by
          simp [processOne, hfind0]
        simp only [reconcile]
        rw [hp]
        rfl
      | some e =>
        have ih := reconcile_unbound_db parseDate existing rs ⟨r', hmem, hfind⟩
        by_cases hvr : r.data.version = e.version
        · have hp : processOne ⟨none⟩ parseDate existing r = Except.ok [] := by
            simp [processOne, hfind0, hvr]
          simp only [reconcile]
          rw [hp, ih]
          rfl
        · have hp : processOne ⟨none⟩ parseDate existing r
              = Except.ok [NotionCall.pagesUpdate e.page_id
                  (UpdatePayload.fullProps (create_post_objects parseDate r).properties)
                  none none] := by
            simp [processOne, hfind0, hvr]
          simp only [reconcile]
          rw [hp, ih]
          rfl

/-- C8: the create branch references the module-level name `notion_db_id`,
bound only when the file runs as `__main__`; when the module was imported
(the name is unbound) and some source record's key is absent from the mirror
index, `process_records` raises `NameError` (and thus returns no calls)
instead of issuing a create request. -/
theorem import_create_raises_nameError (parseDate : String → String)
    (zs : List ZoteroRecord) (ns : List NotionPage)
    (habs : ∃ r ∈ zs, dictFind (get_existing_notion_records ns) r.data.key = none) :
    process_records ⟨none⟩ parseDate zs ns
      = Except.error (PyError.nameError "notion_db_id") := by
  rw [process_records, reconcile_unbound_db parseDate (get_existing_notion_records ns) zs habs]

/-- C8 witness: importing the module and processing one record absent from an
empty mirror raises the `NameError`. -/
theorem import_create_raises_nameError_witness :
    process_records ⟨none⟩ id [sampleRecord] []
      = Except.error (PyError.nameError "notion_db_id") :=
  import_create_raises_nameError id [sampleRecord] []
    ⟨sampleRecord, List.mem_singleton.mpr rfl, rfl⟩

theorem reconcile_synced (env : PyEnv) (parseDate : String → String)
    (existing : NotionDict) :
    ∀ zs : List ZoteroRecord,
      (∀ r ∈ zs, ∃ e, dictFind existing r.data.key = some e ∧
        e.version = r.data.version) →
      reconcile env parseDate existing zs = Except.ok []
  | [], _ => rfl
  | r :: rs, h => by
    obtain ⟨e, hfind, hv⟩ := h r (List.mem_cons_self r rs)
    have ih := reconcile_synced env parseDate existing rs
      fun r' hr' => h r' (List.mem_cons_of_mem _ hr')
    have hp : processOne env parseDate existing r = Except.ok [] := by
      simp [processOne, hfind, hv.symm]
    simp only [reconcile]
    rw [hp, ih]
    rfl

/-- C2: when every source record is already indexed at exactly its current
version (the mirror is fully synced and the source unchanged), the
reconciliation loop issues zero create and zero update calls, the overall run
produces exactly the deletion-flagging pass's output, and every call of that
pass is a sentinel-tag flag update. -/
theorem synced_mirror_no_writes (env : PyEnv) (parseDate : String → String)
    (zs : List ZoteroRecord) (ns : List NotionPage)
    (hsync : ∀ r ∈ zs, ∃ e,
      dictFind (get_existing_notion_records ns) r.data.key = some e ∧
        e.version = r.data.version) :
    reconcile env parseDate (get_existing_notion_records ns) zs = Except.ok [] ∧
    process_records env parseDate zs ns
      = Except.ok (find_removed_records zs (get_existing_notion_records ns)) ∧
    ∀ c ∈ (find_removed_records zs (get_existing_notion_records ns)).1,
      ∃ pid, c = NotionCall.pagesUpdate pid
        (UpdatePayload.tagsOnly [sentinelTag]) (some crossIcon) none := by
  have hrec := reconcile_synced env parseDate (get_existing_notion_records ns) zs hsync
  refine ⟨hrec, ?_, ?_⟩
  · rw [process_records, hrec]
    rcases hfr : find_removed_records zs (get_existing_notion_records ns) with ⟨f, d, rep⟩
    rfl
  · intro c hc
    have h := find_removed_foldl (zs.map fun r => r.key)
      (get_existing_notion_records ns) [] []
    rw [find_removed_records, h] at hc
    simp only [List.nil_append, List.mem_map] at hc
    obtain ⟨p, _, rfl⟩ := hc
    exact ⟨p.2.page_id, rfl⟩

/-- C2 witness: one source record mirrored at its current version yields an
empty reconciliation pass. -/
theorem synced_mirror_no_writes_witness :
    reconcile ⟨some "db"⟩ id (get_existing_notion_records [⟨"p1", "k1", 3⟩])
      [sampleRecord] = Except.ok [] := by
  have h := synced_mirror_no_writes ⟨some "db"⟩ id [sampleRecord] [⟨"p1", "k1", 3⟩]
    (by
      intro r hr
      rw [List.mem_singleton] at hr
      subst hr
      exact ⟨⟨"p1", 3⟩, rfl, rfl⟩)
  exact h.1

/-- C6: when the extra text does not match the citation key pattern,
`create_post_objects` emits a non-fatal warning and returns the property set
with the Citation Key omitted while every other mapped property is still
present with its mapped value — the mapping never fails. -/
theorem missing_citekey_recoverable (parseDate : String → String) (r : ZoteroRecord)
    (h : searchCitekey r.data.extra = none) :
    (create_post_objects parseDate r).warnings
      = ["Could not retrieve citation key for entry with title " ++ r.data.title] ∧
    (create_post_objects parseDate r).properties.citationKey = none ∧
    (create_post_objects parseDate r).properties.title = r.data.title ∧
    (create_post_objects parseDate r).properties.publicationDate
      = (match r.data.date with
         | some d => if d ≠ "" then some (parseDate d) else none
         | none => none) ∧
    (create_post_objects parseDate r).properties.authors = mapAuthors r.data.creators ∧
    (create_post_objects parseDate r).properties.tags = mapTags r.data.tags ∧
    (create_post_objects parseDate r).properties.zoteroKey = r.data.key ∧
    (create_post_objects parseDate r).properties.zoteroVersion = r.data.version ∧
    (create_post_objects parseDate r).properties.zoteroDateModified
      = r.data.dateModified ∧
    (create_post_objects parseDate r).properties.zoteroDateAdded = r.data.dateAdded ∧
    (create_post_objects parseDate r).properties.zoteroLink = r.alternateHref ∧
    (create_post_objects parseDate r).properties.url
      = (match r.data.url with
         | some u => if u ≠ "" then some u else none
         | none => none) := by
  refine ⟨?_, ?_, rfl, rfl, rfl, rfl, rfl, rfl, rfl, rfl, rfl, rfl⟩ <;>
    simp [create_post_objects, h]

/-- A record whose extra text has no citation key marker. -/
def sampleNoKeyRecord : ZoteroRecord :=
  ⟨"k1", { sampleData with extra := "nothing here" }, "href"⟩

/-- C6 witness: the marker-less record keeps its other properties while the
Citation Key is omitted and a warning is emitted. -/
theorem missing_citekey_recoverable_witness :
    (create_post_objects id sampleNoKeyRecord).properties.citationKey = none ∧
    (create_post_objects id sampleNoKeyRecord).properties.title = "T" ∧
    (create_post_objects id sampleNoKeyRecord).warnings ≠ [] := by
  have h := missing_citekey_recoverable id sampleNoKeyRecord (by decide)
  refine ⟨h.2.1, h.2.2.1, ?_⟩
  rw [h.1]
  decide

/-- C9 (amended): when the first occurrence of the literal "Citation Key: "
in the extra text is followed immediately by whitespace or by the end of the
string, `\S*` matches the empty string, so the Citation Key property is
present but empty and no warning is emitted. -/
theorem citekey_empty_on_first_occurrence (parseDate : String → String)
    (r : ZoteroRecord) (rest : List Char)
    (h : findAfter citekeyMarker.data r.data.extra.data = some rest)
    (hws : rest = [] ∨ ∃ c cs, rest = c :: cs ∧ c.isWhitespace = true) :
    (create_post_objects parseDate r).properties.citationKey = some "" ∧
    (create_post_objects parseDate r).warnings = [] := by
  have hse : searchCitekey r.data.extra = some "" := by
    rw [searchCitekey, h]
    rcases hws with rfl | ⟨c, cs, rfl, hc⟩
    · rfl
    · simp [List.takeWhile_cons, hc]
  constructor
  · simp [create_post_objects, hse]
  · simp [create_post_objects, hse]

/-- A record whose extra text ends right after the citation key marker. -/
def sampleEmptyKeyRecord : ZoteroRecord :=
  ⟨"k1", { sampleData with extra := "Citation Key: " }, "href"⟩

/-- C9 witness: marker at end of string yields an empty, warning-free
Citation Key property. -/
theorem citekey_empty_on_first_occurrence_witness :
    (create_post_objects id sampleEmptyKeyRecord).properties.citationKey = some "" ∧
    (create_post_objects id sampleEmptyKeyRecord).warnings = [] :=
  citekey_empty_on_first_occurrence id sampleEmptyKeyRecord []
    (by decide) (Or.inl rfl)

/-- A record whose extra text holds the marker twice: first followed by a
non-whitespace key, then followed by the end of the string. -/
def sampleTwoKeyRecord : ZoteroRecord :=
  ⟨"k1", { sampleData with extra := "Citation Key: x Citation Key: " }, "href"⟩

/-- C9 counterexample: this extra text does contain "Citation Key: "
followed immediately by the end of the string (its second occurrence), yet
`re.search` anchors at the first occurrence, so the Citation Key property is
"x", not the empty string — refuting the claim as stated. -/
theorem citekey_empty_claim_cex :
    (∃ pre : String,
      sampleTwoKeyRecord.data.extra = pre ++ citekeyMarker) ∧
    (create_post_objects id sampleTwoKeyRecord).properties.citationKey = some "x" ∧
    some "x" ≠ some ("" : String) := by
  refine ⟨⟨"Citation Key: x ", by decide⟩, by decide, by decide⟩


/-! ### Abstract truncation (C5) -/

theorem lenSum_nil : lenSum [] = 0 := rfl

theorem lenSum_cons (c : List Char) (l : List (List Char)) :
    lenSum (c :: l) = c.length + lenSum l := by
  simp [lenSum]

theorem lenSum_append (a b : List (List Char)) :
    lenSum (a ++ b) = lenSum a + lenSum b := by
  simp [lenSum]

theorem lenSum_reverse (l : List (List Char)) : lenSum l.reverse = lenSum l := by
  simp [lenSum, List.sum_reverse]

theorem length_flatten_eq_lenSum (l : List (List Char)) :
    l.flatten.length = lenSum l := by
  rw [lenSum, List.length_flatten]

theorem mem_of_getLastEq {α : Type} : ∀ {l : List α} {a : α},
    l.getLast? = some a → a ∈ l
  | [], a, h => by simp at h
  | [x], a, h => by
    simp at h
    simp [h]
  | x :: y :: t, a, h => by
    rw [List.getLast?_cons_cons] at h
    exact List.mem_cons_of_mem x (mem_of_getLastEq h)

theorem exists_getLastEq_of_ne_nil {α : Type} : ∀ {l : List α}, l ≠ [] →
    ∃ a, l.getLast? = some a ∧ a ∈ l
  | [], h => absurd rfl h
  | [x], _ => ⟨x, rfl, List.mem_singleton.mpr rfl⟩
  | x :: y :: t, _ => by
    obtain ⟨a, ha, hm⟩ := exists_getLastEq_of_ne_nil (l := y :: t) (by simp)
    exact ⟨a, by rw [List.getLast?_cons_cons]; exact ha, List.mem_cons_of_mem x hm⟩

theorem lastHyphen_lt : ∀ (l : List Char) (h : Nat), lastHyphen l = some h → h < l.length
  | [], h, hh => by simp [lastHyphen] at hh
  | c :: cs, h, hh => by
    rw [lastHyphen] at hh
    cases hlh : lastHyphen cs with
    | some g =>
      simp only [hlh] at hh
      cases hh
      have := lastHyphen_lt cs g hlh
      simp only [List.length_cons]
      omega
    | none =>
      simp only [hlh] at hh
      split at hh
      · cases hh
        simp
      · cases hh

theorem breakEnd_le (ch : List Char) (sl : Nat) : breakEnd ch sl ≤ sl := by
  rw [breakEnd]
  split
  · cases hlh : lastHyphen (ch.take sl) with
    | some h =>
      simp only
      split
      · have hlt := lastHyphen_lt _ _ hlh
        rw [List.length_take] at hlt
        have := lt_of_lt_of_le hlt (min_le_left sl ch.length)
        omega
      · exact le_rfl
    | none => exact le_rfl
  · exact le_rfl

theorem breakEnd_pos (ch : List Char) (sl : Nat) (h : 1 ≤ sl) : 1 ≤ breakEnd ch sl := by
  rw [breakEnd]
  split
  · cases hlh : lastHyphen (ch.take sl) with
    | some g =>
      simp only
      split
      · omega
      · exact h
    | none => exact h
  · exact h

theorem fillLine_spec (W : Nat) : ∀ (cs : List (List Char)) (acc : Nat), acc ≤ W →
    (fillLine W acc cs).1 ++ (fillLine W acc cs).2 = cs ∧
    acc + lenSum (fillLine W acc cs).1 ≤ W
  | [], acc, h => by
    rw [fillLine]
    exact ⟨rfl, by simpa [lenSum] using h⟩
  | c :: cs, acc, h => by
    rw [fillLine]
    split
    · rename_i hfit
      have ih := fillLine_spec W cs (acc + c.length) hfit
      refine ⟨?_, ?_⟩
      · simp only [List.cons_append]
        rw [ih.1]
      · simp only [lenSum_cons]
        omega
    · exact ⟨rfl, by simpa [lenSum] using h⟩

theorem dropTrailingWs_prefixOf (l : List (List Char)) : dropTrailingWs l <+: l := by
  rw [dropTrailingWs]
  cases l.getLast? with
  | none => exact List.prefix_rfl
  | some c =>
    simp only
    split
    · exact List.dropLast_prefix l
    · exact List.prefix_rfl

theorem dropTrailingWs_ne_nil (c : List Char) (l : List (List Char))
    (hc : ¬ c.all Char.isWhitespace = true) : dropTrailingWs (c :: l) ≠ [] := by
  rw [dropTrailingWs]
  cases l with
  | nil =>
    simp only [List.getLast?_singleton]
    rw [if_neg hc]
    simp
  | cons x xs =>
    cases hg : (c :: x :: xs).getLast? with
    | none => simp at hg
    | some d =>
      simp only
      split
      · intro hnil
        have := congrArg List.length hnil
        simp [List.length_dropLast] at this
      · simp

theorem placeholderDropRev_spec (W : Nat) : ∀ (l k : List (List Char)),
    placeholderDropRev W l = some k →
    k <:+ l ∧ k ≠ [] ∧ lenSum k + textPlaceholder.length ≤ W
  | [], k, h => by simp [placeholderDropRev] at h
  | c :: rest, k, h => by
    rw [placeholderDropRev] at h
    split at h
    · rename_i hcond
      cases h
      exact ⟨List.suffix_rfl, by simp, hcond.2⟩
    · have ih := placeholderDropRev_spec W rest k h
      exact ⟨ih.1.trans ⟨[c], rfl⟩, ih.2.1, ih.2.2⟩

theorem chunkEnd_ge (w : List Char) : ∀ (fuel j : Nat), j ≤ chunkEnd w j fuel
  | 0, j => le_rfl
  | fuel + 1, j => by
    rw [chunkEnd]
    split
    · split
      · omega
      · split
        · exact le_rfl
        · have := chunkEnd_ge w fuel (j + 1)
          omega
    · exact le_rfl

theorem chunkEnd_le (w : List Char) : ∀ (fuel j : Nat), j ≤ w.length →
    chunkEnd w j fuel ≤ w.length
  | 0, j, h => h
  | fuel + 1, j, h => by
    rw [chunkEnd]
    split
    · rename_i hj
      split
      · omega
      · split
        · exact h
        · exact chunkEnd_le w fuel (j + 1) (by omega)
    · exact h

theorem emDashChunkLen_spec (w : List Char) (s k : Nat)
    (h : emDashChunkLen w s = some k) : 2 ≤ k ∧ s + k ≤ w.length := by
  simp only [emDashChunkLen] at h
  split at h
  · rename_i hcond
    cases h
    simp only [Bool.and_eq_true, decide_eq_true_eq] at hcond
    obtain ⟨⟨⟨h1, h2⟩, h3⟩, h4⟩ := hcond
    refine ⟨h3, ?_⟩
    have hle : countHyphens w s ≤ (w.drop s).length :=
      (List.takeWhile_sublist _).length_le
    rw [List.length_drop] at hle
    omega
  · cases h

theorem chunkWordAux_mem (w : List Char) : ∀ (fuel s : Nat), ∀ c ∈ chunkWordAux w s fuel,
    c ≠ [] ∧ ∀ ch ∈ c, ch ∈ w
  | 0, s => by simp [chunkWordAux]
  | fuel + 1, s => by
    intro c hc
    simp only [chunkWordAux] at hc
    split at hc
    · rename_i hs
      cases hed : emDashChunkLen w s with
      | some k =>
        simp only [hed] at hc
        rcases List.mem_cons.mp hc with rfl | hmem
        · obtain ⟨hk2, hsk⟩ := emDashChunkLen_spec w s k hed
          constructor
          · intro hnil
            have hl := congrArg List.length hnil
            rw [List.length_take, List.length_drop] at hl
            simp only [List.length_nil] at hl
            rw [Nat.min_eq_zero_iff] at hl
            omega
          · intro ch hch
            exact List.mem_of_mem_drop (List.mem_of_mem_take hch)
        · exact chunkWordAux_mem w fuel (s + k) c hmem
      | none =>
        simp only [hed] at hc
        rcases List.mem_cons.mp hc with rfl | hmem
        · have he1 : s + 1 ≤ chunkEnd w (s + 1) w.length := chunkEnd_ge w w.length (s + 1)
          constructor
          · intro hnil
            have hl := congrArg List.length hnil
            rw [List.length_take, List.length_drop] at hl
            simp only [List.length_nil] at hl
            rw [Nat.min_eq_zero_iff] at hl
            omega
          · intro ch hch
            exact List.mem_of_mem_drop (List.mem_of_mem_take hch)
        · exact chunkWordAux_mem w fuel _ c hmem
    · simp at hc

theorem chunkWordAux_ne_nil (w : List Char) (s fuel : Nat) (hs : s < w.length)
    (hf : fuel ≠ 0) : chunkWordAux w s fuel ≠ [] := by
  cases fuel with
  | zero => exact absurd rfl hf
  | succ f =>
    rw [chunkWordAux, if_pos hs]
    cases emDashChunkLen w s <;> simp

theorem lenSum_chunkWordAux (w : List Char) : ∀ (fuel s : Nat), s ≤ w.length →
    w.length - s ≤ fuel → lenSum (chunkWordAux w s fuel) = w.length - s
  | 0, s, hs, hf => by
    rw [chunkWordAux]
    simp [lenSum]
    omega
  | fuel + 1, s, hs, hf => by
    simp only [chunkWordAux]
    split
    · rename_i hslt
      cases hed : emDashChunkLen w s with
      | some k =>
        obtain ⟨hk2, hsk⟩ := emDashChunkLen_spec w s k hed
        rw [lenSum_cons, List.length_take, List.length_drop]
        rw [lenSum_chunkWordAux w fuel (s + k) (by omega) (by omega)]
        have hmin : k ⊓ (w.length - s) = k := Nat.min_eq_left (by omega)
        omega
      | none =>
        rw [lenSum_cons, List.length_take, List.length_drop]
        have he1 : s + 1 ≤ chunkEnd w (s + 1) w.length := chunkEnd_ge w w.length (s + 1)
        have he2 : chunkEnd w (s + 1) w.length ≤ w.length :=
          chunkEnd_le w w.length (s + 1) (by omega)
        rw [lenSum_chunkWordAux w fuel (chunkEnd w (s + 1) w.length) (by omega) (by omega)]
        have hmin : (chunkEnd w (s + 1) w.length - s) ⊓ (w.length - s)
            = chunkEnd w (s + 1) w.length - s := Nat.min_eq_left (by omega)
        omega
    · rename_i hslt
      simp [lenSum]
      omega

theorem lenSum_chunkWord (w : List Char) : lenSum (chunkWord w) = w.length := by
  rw [chunkWord]
  have := lenSum_chunkWordAux w w.length 0 (by omega) (by omega)
  simpa using this

theorem chunkWord_mem (w : List Char) (c : List Char) (hc : c ∈ chunkWord w) :
    c ≠ [] ∧ ∀ ch ∈ c, ch ∈ w :=
  chunkWordAux_mem w w.length 0 c hc

theorem chunkWord_ne_nil (w : List Char) (hw : w ≠ []) : chunkWord w ≠ [] := by
  rw [chunkWord]
  exact chunkWordAux_ne_nil w 0 w.length (List.length_pos.mpr hw)
    (by simpa [List.length_eq_zero] using hw)

theorem lenSum_textChunks : ∀ ws : List String,
    lenSum (textChunks ws) = (joinWords ws).length
  | [] => rfl
  | [w] => by
    show lenSum (chunkWord w.data) = w.length
    rw [lenSum_chunkWord]
    rfl
  | w :: w' :: ws => by
    show lenSum (chunkWord w.data ++ [' '] :: textChunks (w' :: ws))
        = (w ++ " " ++ joinWords (w' :: ws)).length
    rw [lenSum_append, lenSum_cons, lenSum_chunkWord,
      lenSum_textChunks (w' :: ws), String.length_append, String.length_append]
    have h1 : w.data.length = w.length := rfl
    have h2 : ([' '] : List Char).length = 1 := rfl
    have h3 : (" " : String).length = 1 := rfl
    omega

theorem textChunks_ne_nil (w : String) (ws : List String) (hw : w.data ≠ []) :
    textChunks (w :: ws) ≠ [] := by
  cases ws with
  | nil =>
    show chunkWord w.data ≠ []
    exact chunkWord_ne_nil _ hw
  | cons w' ws' =>
    show chunkWord w.data ++ [' '] :: _ ≠ []
    simp

theorem textChunks_head (w : String) (ws : List String) (hw : w.data ≠ []) :
    ∃ c0 crest, textChunks (w :: ws) = c0 :: crest ∧ c0 ∈ chunkWord w.data := by
  have hne := chunkWord_ne_nil w.data hw
  cases hcw : chunkWord w.data with
  | nil => exact absurd hcw hne
  | cons c0 cr =>
    cases ws with
    | nil =>
      refine ⟨c0, cr, ?_, ?_⟩
      · show chunkWord w.data = _
        rw [hcw]
      · exact List.mem_cons_self _ _
    | cons w' ws' =>
      refine ⟨c0, cr ++ [' '] :: textChunks (w' :: ws'), ?_, ?_⟩
      · show chunkWord w.data ++ [' '] :: textChunks (w' :: ws') = _
        rw [hcw]
        rfl
      · exact List.mem_cons_self _ _

theorem textChunks_last : ∀ ws : List String, ws ≠ [] → (∀ w ∈ ws, w.data ≠ []) →
    ∃ cl wl, wl ∈ ws ∧ (textChunks ws).getLast? = some cl ∧ cl ∈ chunkWord wl.data
  | [], h, _ => absurd rfl h
  | [w], _, hws => by
    obtain ⟨cl, hcl, hm⟩ :=
      exists_getLastEq_of_ne_nil (chunkWord_ne_nil w.data (hws w (by simp)))
    exact ⟨cl, w, by simp, hcl, hm⟩
  | w :: w' :: ws, _, hws => by
    obtain ⟨cl, wl, hwl, hlast, hm⟩ := textChunks_last (w' :: ws) (by simp)
      (fun x hx => hws x (List.mem_cons_of_mem _ hx))
    refine ⟨cl, wl, List.mem_cons_of_mem _ hwl, ?_, hm⟩
    show (chunkWord w.data ++ [' '] :: textChunks (w' :: ws)).getLast? = some cl
    rw [List.getLast?_append]
    have hTne : textChunks (w' :: ws) ≠ [] := textChunks_ne_nil w' ws (hws w' (by simp))
    cases hT : textChunks (w' :: ws) with
    | nil => exact absurd hT hTne
    | cons t T' =>
      rw [List.getLast?_cons_cons]
      rw [hT] at hlast
      rw [hlast]
      rfl

theorem textChunks_elems : ∀ ws : List String,
    (∀ w ∈ ws, ∀ c ∈ w.data, c.isWhitespace = false) →
    ∀ c ∈ textChunks ws, c = [' '] ∨ (c ≠ [] ∧ c.all (fun ch => !ch.isWhitespace) = true)
  | [], _, c, hc => by simp [textChunks] at hc
  | [w], h, c, hc => by
    right
    have hm := chunkWord_mem w.data c hc
    refine ⟨hm.1, ?_⟩
    rw [List.all_eq_true]
    intro ch hch
    simp [h w (by simp) ch (hm.2 ch hch)]
  | w :: w' :: ws, h, c, hc => by
    rw [show textChunks (w :: w' :: ws)
        = chunkWord w.data ++ [' '] :: textChunks (w' :: ws) from rfl] at hc
    rcases List.mem_append.mp hc with hmem | hmem
    · right
      have hm := chunkWord_mem w.data c hmem
      refine ⟨hm.1, ?_⟩
      rw [List.all_eq_true]
      intro ch hch
      simp [h w (by simp) ch (hm.2 ch hch)]
    · rcases List.mem_cons.mp hmem with rfl | hmem'
      · left
        rfl
      · exact textChunks_elems (w' :: ws)
          (fun x hx => h x (List.mem_cons_of_mem _ hx)) c hmem'

theorem splitWordsAux_wordlike : ∀ (cs acc : List Char),
    (∀ c ∈ acc, c.isWhitespace = false) →
    ∀ l ∈ splitWordsAux cs acc, l ≠ [] ∧ ∀ c ∈ l, c.isWhitespace = false
  | [], acc, hacc, l, hl => by
    rw [splitWordsAux] at hl
    split at hl
    · simp at hl
    · rename_i hne
      rw [List.mem_singleton] at hl
      subst hl
      exact ⟨by simpa using hne, fun c hc => hacc c (List.mem_reverse.mp hc)⟩
  | c :: cs, acc, hacc, l, hl => by
    rw [splitWordsAux] at hl
    split at hl
    · split at hl
      · exact splitWordsAux_wordlike cs [] (by simp) l hl
      · rename_i hne
        rcases List.mem_cons.mp hl with rfl | hmem
        · exact ⟨by simpa using hne, fun x hx => hacc x (List.mem_reverse.mp hx)⟩
        · exact splitWordsAux_wordlike cs [] (by simp) l hmem
    · rename_i hcws
      refine splitWordsAux_wordlike cs (c :: acc) ?_ l hl
      intro x hx
      rcases List.mem_cons.mp hx with rfl | hmem
      · simpa using hcws
      · exact hacc x hmem

theorem wordsOf_wordlike (s : String) :
    ∀ w ∈ wordsOf s, w.data ≠ [] ∧ ∀ c ∈ w.data, c.isWhitespace = false := by
  intro w hw
  rw [wordsOf] at hw
  obtain ⟨l, hl, rfl⟩ := List.mem_map.mp hw
  exact splitWordsAux_wordlike s.data [] (by simp) l hl

theorem word_chunk_facts (c : List Char) (hne : c ≠ [])
    (hall : c.all (fun ch => !ch.isWhitespace) = true) :
    c.all Char.isWhitespace = false ∧ (c.any fun ch => !ch.isWhitespace) = true := by
  cases c with
  | nil => exact absurd rfl hne
  | cons x xs =>
    rw [List.all_cons, Bool.and_eq_true] at hall
    have hx : x.isWhitespace = false := by simpa using hall.1
    constructor
    · simp [List.all_cons, hx]
    · simp [List.any_cons, hx]

theorem take_all_not_ws (c : List Char) (n : Nat)
    (h : c.all (fun ch => !ch.isWhitespace) = true) :
    (c.take n).all (fun ch => !ch.isWhitespace) = true := by
  rw [List.all_eq_true] at h ⊢
  exact fun x hx => h x (List.mem_of_mem_take hx)

theorem drop_all_not_ws (c : List Char) (n : Nat)
    (h : c.all (fun ch => !ch.isWhitespace) = true) :
    (c.drop n).all (fun ch => !ch.isWhitespace) = true := by
  rw [List.all_eq_true] at h ⊢
  exact fun x hx => h x (List.mem_of_mem_drop hx)

/-- `L` is a prefix of the chunk list `cs` at chunk granularity, allowing the
element right after the prefix to be the leading fragment of the next chunk
when that chunk alone exceeds the width `W` (the `break_long_words` rule). -/
def chunkPrefixUpToSplit (W : Nat) (cs L : List (List Char)) : Prop :=
  L <+: cs ∨
    ∃ (P : List (List Char)) (ch f : List Char) (rs : List (List Char)),
      cs = P ++ ch :: rs ∧ W < ch.length ∧ f <+: ch ∧ L <+: P ++ [f]

theorem finishLine_truncates (W : Nat) (hW : 5 ≤ W) (cur1 rest : List (List Char))
    (hcur : dropTrailingWs cur1 ≠ [])
    (hrest : rest ≠ [])
    (hrw : lastChunkOnlyWs rest = false) :
    ∃ l, finishLine W cur1 rest = WrapStep.line l ∧ l.length ≤ W ∧
      (l = ("[...]" : String).data ∨
        ∃ L, L ≠ [] ∧ l = L.flatten ++ textPlaceholder.data ∧ L <+: cur1 ∧
          lenSum L + textPlaceholder.length ≤ W) := by
  simp only [finishLine]
  rw [if_neg hcur]
  have hacc : ¬ ((rest = [] ∨ lastChunkOnlyWs rest = true)
      ∧ lenSum (dropTrailingWs cur1) ≤ W) := by
    rintro ⟨h1 | h2, -⟩
    · exact hrest h1
    · rw [hrw] at h2
      cases h2
  rw [if_neg hacc]
  cases hpd : placeholderDropRev W (dropTrailingWs cur1).reverse with
  | none =>
    refine ⟨_, rfl, ?_, Or.inl rfl⟩
    simp only [List.length_cons, List.length_nil]
    omega
  | some kept =>
    obtain ⟨hsuf, hkne, hfitk⟩ := placeholderDropRev_spec W _ kept hpd
    refine ⟨_, rfl, ?_, Or.inr ⟨kept.reverse, by simpa using hkne, rfl, ?_, ?_⟩⟩
    · rw [List.length_append, length_flatten_eq_lenSum, lenSum_reverse]
      have hpl : textPlaceholder.data.length = textPlaceholder.length := rfl
      omega
    · have h1 : kept.reverse <+: dropTrailingWs cur1 := by
        rw [← List.reverse_suffix, List.reverse_reverse]
        exact hsuf
      exact h1.trans (dropTrailingWs_prefixOf cur1)
    · rw [lenSum_reverse]
      exact hfitk

theorem wrapStep_truncates (W : Nat) (hW : 5 ≤ W) (chunks : List (List Char))
    (hlen : W < lenSum chunks)
    (helems : ∀ c ∈ chunks, c = [' '] ∨ (c ≠ [] ∧ c.all (fun ch => !ch.isWhitespace) = true))
    (hfirst : ∃ c0 crest, chunks = c0 :: crest ∧ c0 ≠ []
      ∧ c0.all (fun ch => !ch.isWhitespace) = true)
    (hlast : ∃ cl, chunks.getLast? = some cl ∧ cl ≠ []
      ∧ cl.all (fun ch => !ch.isWhitespace) = true) :
    ∃ l, wrapStep W chunks = WrapStep.line l ∧ l.length ≤ W ∧
      (l = ("[...]" : String).data ∨
        ∃ L, L ≠ [] ∧ l = L.flatten ++ textPlaceholder.data ∧
          chunkPrefixUpToSplit W chunks L ∧ lenSum L + textPlaceholder.length ≤ W) := by
  obtain ⟨c0, crest, rfl, hc0ne, hc0ws⟩ := hfirst
  obtain ⟨hsplit, hfit⟩ := fillLine_spec W (c0 :: crest) 0 (by omega)
  simp only [Nat.zero_add] at hfit
  set q := fillLine W 0 (c0 :: crest) with hq
  simp only [wrapStep]
  have hq1head : ∀ d ds, q.1 = d :: ds → d = c0 := by
    intro d ds hd
    have hs := hsplit
    rw [hd] at hs
    simp only [List.cons_append] at hs
    injection hs with h1 h2
  have hq1nil : q.1 = [] → W < c0.length := by
    intro h0
    by_contra hle
    push_neg at hle
    have hdef : q = (c0 :: (fillLine W (0 + c0.length) crest).1,
        (fillLine W (0 + c0.length) crest).2) := by
      rw [hq, fillLine, if_pos (show 0 + c0.length ≤ W by omega)]
    rw [hdef] at h0
    simp at h0
  cases hrest0 : q.2 with
  | nil =>
    exfalso
    rw [hrest0, List.append_nil] at hsplit
    rw [hsplit] at hfit
    omega
  | cons ch rs =>
    have hqeta : q = (q.1, ch :: rs) := by rw [← hrest0]
    by_cases hlong : W < ch.length
    · -- the long-word break fires
      have hch_mem : ch ∈ c0 :: crest := by
        rw [← hsplit, hrest0]
        exact List.mem_append_right _ (List.mem_cons_self _ _)
      have hch_word : ch ≠ [] ∧ ch.all (fun c => !c.isWhitespace) = true := by
        rcases helems ch hch_mem with h1 | h2
        · exfalso
          rw [h1] at hlong
          simp at hlong
          omega
        · exact h2
      have haft : afterLongWord W q
          = (q.1 ++ [ch.take (breakEnd ch (W - lenSum q.1))],
             ch.drop (breakEnd ch (W - lenSum q.1)) :: rs) := by
        conv_lhs => rw [hqeta]
        rw [afterLongWord, if_pos hlong, if_neg (show ¬ W < 1 by omega)]
      rw [haft]
      set e := breakEnd ch (W - lenSum q.1) with hedef
      have he_le : e ≤ W - lenSum q.1 := breakEnd_le ch _
      have hcurne : dropTrailingWs (q.1 ++ [ch.take e]) ≠ [] := by
        cases hq1 : q.1 with
        | nil =>
          have hsl : W - lenSum q.1 = W := by
            rw [hq1]
            simp [lenSum]
          have he1 : 1 ≤ e := by
            rw [hedef, hsl]
            exact breakEnd_pos ch W (by omega)
          have hfragne : ch.take e ≠ [] := by
            intro h
            have hl := congrArg List.length h
            rw [List.length_take] at hl
            simp only [List.length_nil] at hl
            rw [Nat.min_eq_zero_iff] at hl
            have : ch.length ≠ 0 := by
              intro hz
              omega
            omega
          simp only [List.nil_append]
          apply dropTrailingWs_ne_nil
          rw [(word_chunk_facts _ hfragne (take_all_not_ws ch e hch_word.2)).1]
          simp
        | cons d ds =>
          have hd := hq1head d ds hq1
          subst hd
          simp only [List.cons_append]
          apply dropTrailingWs_ne_nil
          rw [(word_chunk_facts d hc0ne hc0ws).1]
          simp
      have hrestne : ch.drop e :: rs ≠ [] := by simp
      have hrestws : lastChunkOnlyWs (ch.drop e :: rs) = false := by
        cases rs with
        | cons r rs2 => rfl
        | nil =>
          show (ch.drop e).all Char.isWhitespace = false
          have hdne : ch.drop e ≠ [] := by
            intro h
            have hl := congrArg List.length h
            rw [List.length_drop] at hl
            simp only [List.length_nil] at hl
            omega
          exact (word_chunk_facts _ hdne (drop_all_not_ws ch e hch_word.2)).1
      obtain ⟨l, hline, hlenle, hshape⟩ := finishLine_truncates W hW
        (q.1 ++ [ch.take e]) (ch.drop e :: rs) hcurne hrestne hrestws
      refine ⟨l, hline, hlenle, ?_⟩
      rcases hshape with h1 | ⟨L, hLne, hLeq, hLpre, hLfit⟩
      · exact Or.inl h1
      · refine Or.inr ⟨L, hLne, hLeq, Or.inr ?_, hLfit⟩
        refine ⟨q.1, ch, ch.take e, rs, ?_, hlong, List.take_prefix _ _, hLpre⟩
        rw [← hsplit, hrest0]
    · -- the next chunk fits on some line: no break
      have haft : afterLongWord W q = (q.1, ch :: rs) := by
        conv_lhs => rw [hqeta]
        rw [afterLongWord, if_neg hlong]
      rw [haft]
      have hq1ne : q.1 ≠ [] := by
        intro h0
        have hbig := hq1nil h0
        have hq2 : q.2 = c0 :: crest := by
          rw [h0] at hsplit
          simpa using hsplit
        rw [hrest0] at hq2
        injection hq2 with hch hrs
        rw [hch] at hlong
        exact hlong hbig
      have hrestws : lastChunkOnlyWs (ch :: rs) = false := by
        cases rs with
        | cons r rs2 => rfl
        | nil =>
          show ch.all Char.isWhitespace = false
          obtain ⟨cl, hcl, hclne, hclws⟩ := hlast
          have hlastch : (c0 :: crest).getLast? = some ch := by
            rw [← hsplit, hrest0]
            exact List.getLast?_concat _
          rw [hlastch] at hcl
          injection hcl with hcl
          rw [← hcl] at hclne hclws
          exact (word_chunk_facts ch hclne hclws).1
      cases hq1 : q.1 with
      | nil => exact absurd hq1 hq1ne
      | cons d ds =>
        have hd := hq1head d ds hq1
        subst hd
        have hcurne : dropTrailingWs (d :: ds) ≠ [] := by
          apply dropTrailingWs_ne_nil
          rw [(word_chunk_facts d hc0ne hc0ws).1]
          simp
        obtain ⟨l, hline, hlenle, hshape⟩ := finishLine_truncates W hW
          (d :: ds) (ch :: rs) hcurne (by simp) hrestws
        refine ⟨l, hline, hlenle, ?_⟩
        rcases hshape with h1 | ⟨L, hLne, hLeq, hLpre, hLfit⟩
        · exact Or.inl h1
        · refine Or.inr ⟨L, hLne, hLeq, Or.inl ?_, hLfit⟩
          rw [hq1] at hsplit
          exact hLpre.trans ⟨q.2, hsplit⟩

theorem wrapFill_of_step_line (W fuel : Nat) (chunks : List (List Char))
    (l : List Char) (hne : chunks ≠ [])
    (hstep : wrapStep W chunks = WrapStep.line l) :
    wrapFill W (fuel + 1) chunks = l := by
  cases chunks with
  | nil => exact absurd rfl hne
  | cons c cs =>
    show (match wrapStep W (c :: cs) with
      | WrapStep.line l2 => l2
      | WrapStep.more rest => wrapFill W fuel rest) = l
    rw [hstep]

/-- The model reproduces textwrap's hyphen-fragment cut: at width 12 the
hyphenated word "bb-cccccc" is kept up to its eligible hyphen break. -/
theorem shorten_hyphen_example : shorten "bb-cccccc dddd" 12 = "bb- [...]" := by
  decide

/-- C5 (amended): for a record whose abstract, AFTER whitespace collapsing,
is longer than 2000 characters, the emitted children are the "Abstract"
heading and one paragraph with the all-off annotation flags whose content is
at most 2000 characters and ends with the ellipsis marker: it is either the
bare stripped placeholder "[...]" (when not even one chunk fits) or the
concatenation of a nonempty prefix of textwrap's chunk sequence (whole
words, hyphen-terminated fragments of hyphenated words, em-dash runs and
single spaces; the element after the kept chunks may itself be the broken
head of a chunk that alone exceeds 2000 characters) followed by " [...]".
The amendment forced by the counterexamples: the 2000-character threshold
governs the whitespace-collapsed text, and "never cut mid-word" holds only
at chunk granularity — the content can end at an eligible hyphen inside a
hyphenated word, or anywhere inside a single chunk longer than 2000
characters. -/
theorem abstract_truncation_amended (parseDate : String → String)
    (r : ZoteroRecord) (ab : String)
    (hab : r.data.abstractNote = some ab)
    (hlong : (joinWords (wordsOf ab)).length > 2000) :
    ∃ content : String,
      (create_post_objects parseDate r).children
        = [Block.heading2 "Abstract", Block.paragraph content noStyle] ∧
      content.length ≤ 2000 ∧
      (content = "[...]" ∨
        ∃ L, L ≠ [] ∧ content.data = L.flatten ++ textPlaceholder.data ∧
          chunkPrefixUpToSplit 2000 (textChunks (wordsOf ab)) L ∧
          lenSum L + textPlaceholder.length ≤ 2000) ∧
      ("[...]" : String).data <:+ content.data := by
  have hwordf := wordsOf_wordlike ab
  have htile : lenSum (textChunks (wordsOf ab)) = (joinWords (wordsOf ab)).length :=
    lenSum_textChunks (wordsOf ab)
  have hlen : 2000 < lenSum (textChunks (wordsOf ab)) := by omega
  have hwne : wordsOf ab ≠ [] := by
    intro h
    rw [h] at hlen
    simp [textChunks, lenSum] at hlen
  obtain ⟨w₁, wrest, hw⟩ := List.exists_cons_of_ne_nil hwne
  have hw1 : w₁ ∈ wordsOf ab := by
    rw [hw]
    exact List.mem_cons_self _ _
  have hw1f := hwordf w₁ hw1
  obtain ⟨c0, crest, hchunks, hc0mem⟩ := textChunks_head w₁ wrest hw1f.1
  have hchunks2 : textChunks (wordsOf ab) = c0 :: crest := by
    rw [hw]
    exact hchunks
  have hc0 := chunkWord_mem w₁.data c0 hc0mem
  have hc0ws : c0.all (fun ch => !ch.isWhitespace) = true := by
    rw [List.all_eq_true]
    intro x hx
    simp [hw1f.2 x (hc0.2 x hx)]
  have helems := textChunks_elems (wordsOf ab) fun w hwq => (hwordf w hwq).2
  obtain ⟨cl, wl, hwlmem, hlasteq, hclmem⟩ :=
    textChunks_last (wordsOf ab) hwne fun w hwq => (hwordf w hwq).1
  have hclf := chunkWord_mem wl.data cl hclmem
  have hclws : cl.all (fun ch => !ch.isWhitespace) = true := by
    rw [List.all_eq_true]
    intro x hx
    simp [(hwordf wl hwlmem).2 x (hclf.2 x hx)]
  obtain ⟨l, hstep, hlenle, hshape⟩ := wrapStep_truncates 2000 (by omega)
    (textChunks (wordsOf ab)) hlen helems
    ⟨c0, crest, hchunks2, hc0.1, hc0ws⟩ ⟨cl, hlasteq, hclf.1, hclws⟩
  have hchtot : textChunks (wordsOf ab) ≠ [] := by
    rw [hw]
    exact textChunks_ne_nil w₁ wrest hw1f.1
  have hshort : shorten ab 2000 = String.mk l := by
    show String.mk (wrapFill 2000
        (lenSum (textChunks (wordsOf ab)) + (textChunks (wordsOf ab)).length + 1)
        (textChunks (wordsOf ab))) = String.mk l
    congr 1
    exact wrapFill_of_step_line 2000
      (lenSum (textChunks (wordsOf ab)) + (textChunks (wordsOf ab)).length)
      (textChunks (wordsOf ab)) l hchtot hstep
  refine ⟨shorten ab 2000, by simp [create_post_objects, hab], ?_, ?_, ?_⟩
  · rw [hshort]
    exact hlenle
  · rcases hshape with h1 | ⟨L, hLne, hLeq, hLpre, hLfit⟩
    · left
      rw [hshort, h1]
    · right
      refine ⟨L, hLne, ?_, hLpre, hLfit⟩
      rw [hshort]
      exact hLeq
  · rcases hshape with h1 | ⟨L, hLne, hLeq, hLpre, hLfit⟩
    · rw [hshort, h1]
    · rw [hshort]
      show ("[...]" : String).data <:+ l
      rw [hLeq]
      refine List.IsSuffix.trans ?_ (List.suffix_append _ _)
      exact ⟨[' '], rfl⟩

theorem splitWordsAux_replicate_space (n : Nat) (acc : List Char) :
    splitWordsAux (List.replicate n ' ') acc
      = if acc = [] then [] else [acc.reverse] := by
  induction n generalizing acc with
  | zero => rw [List.replicate_zero, splitWordsAux]
  | succ n ih =>
    rw [List.replicate_succ, splitWordsAux]
    have hws : (' '.isWhitespace) = true := by decide
    rw [hws]
    by_cases h : acc = [] <;> simp [h, ih]

theorem splitWordsAux_replicate_a (n : Nat) (acc : List Char) (hacc : acc ≠ []) :
    splitWordsAux (List.replicate n 'a') acc
      = [acc.reverse ++ List.replicate n 'a'] := by
  induction n generalizing acc with
  | zero =>
    rw [List.replicate_zero, splitWordsAux, if_neg hacc]
    simp
  | succ n ih =>
    rw [List.replicate_succ, splitWordsAux]
    have hws : ('a'.isWhitespace) = false := by decide
    rw [hws]
    simp only [Bool.false_eq_true, if_false]
    rw [ih ('a' :: acc) (by simp)]
    simp [List.replicate_succ]

/-- The 2001-character abstract "a" followed by 2000 spaces: longer than 2000
characters, but collapsing to the single word "a". -/
def spacedAbstract : String := String.mk ('a' :: List.replicate 2000 ' ')

/-- A record carrying `spacedAbstract` as its abstract. -/
def spacedAbstractRecord : ZoteroRecord :=
  ⟨"k1", { sampleData with abstractNote := some spacedAbstract }, "href"⟩

theorem wordsOf_spaced : wordsOf spacedAbstract = ["a"] := by
  rw [wordsOf]
  have hdata : spacedAbstract.data = 'a' :: List.replicate 2000 ' ' := rfl
  rw [hdata, splitWordsAux]
  have hws : ('a'.isWhitespace) = false := by decide
  rw [hws]
  simp only [Bool.false_eq_true, if_false]
  rw [splitWordsAux_replicate_space 2000 ['a']]
  rfl

theorem spacedAbstract_length : spacedAbstract.length = 2001 := by
  have h : spacedAbstract.length = ('a' :: List.replicate 2000 ' ').length := rfl
  rw [h, List.length_cons, List.length_replicate]

theorem shorten_spaced : shorten spacedAbstract 2000 = "a" := by
  show String.mk (wrapFill 2000
      (lenSum (textChunks (wordsOf spacedAbstract))
        + (textChunks (wordsOf spacedAbstract)).length + 1)
      (textChunks (wordsOf spacedAbstract))) = "a"
  rw [wordsOf_spaced]
  rfl

/-- C5 counterexample: the raw abstract is longer than 2000 characters, yet
the emitted paragraph content is the bare "a" with no ellipsis marker —
refuting the unconditional "carries an appended ellipsis-style truncation
marker" for every abstract longer than 2000 characters. -/
theorem abstract_truncation_cex :
    spacedAbstract.length > 2000 ∧
    (create_post_objects id spacedAbstractRecord).children
      = [Block.heading2 "Abstract", Block.paragraph "a" noStyle] ∧
    ¬ (("[...]" : String).data <:+ ("a" : String).data) := by
  refine ⟨?_, ?_, by decide⟩
  · rw [spacedAbstract_length]
    norm_num
  · have h : (create_post_objects id spacedAbstractRecord).children
        = [Block.heading2 "Abstract",
           Block.paragraph (shorten spacedAbstract 2000) noStyle] := by
      simp [create_post_objects, spacedAbstractRecord]
    rw [h, shorten_spaced]

/-- A 2500-character single-word abstract: longer than 2000 characters even
after whitespace collapsing. -/
def longWordAbstract : String := String.mk (List.replicate 2500 'a')

/-- A record carrying `longWordAbstract` as its abstract. -/
def longWordRecord : ZoteroRecord :=
  ⟨"k1", { sampleData with abstractNote := some longWordAbstract }, "href"⟩

theorem wordsOf_longWord :
    wordsOf longWordAbstract = [String.mk (List.replicate 2500 'a')] := by
  rw [wordsOf]
  have hdata : longWordAbstract.data = List.replicate 2500 'a' := rfl
  rw [hdata, show (2500 : Nat) = 2499 + 1 from rfl, List.replicate_succ,
    splitWordsAux]
  have hws : ('a'.isWhitespace) = false := by decide
  rw [hws]
  simp only [Bool.false_eq_true, if_false]
  rw [splitWordsAux_replicate_a 2499 ['a'] (by simp)]
  rw [List.map_cons, List.map_nil, List.reverse_singleton, List.singleton_append]

theorem longWord_collapsed_long :
    (joinWords (wordsOf longWordAbstract)).length > 2000 := by
  rw [wordsOf_longWord, joinWords]
  rw [String.mk_length, List.length_replicate]
  norm_num

/-- C5 witness: a single 2500-character word abstract satisfies the amended
theorem's hypotheses and goes through its truncated branch. -/
theorem abstract_truncation_amended_witness :
    ∃ content : String,
      (create_post_objects id longWordRecord).children
        = [Block.heading2 "Abstract", Block.paragraph content noStyle] ∧
      content.length ≤ 2000 ∧
      (content = "[...]" ∨
        ∃ L, L ≠ [] ∧ content.data = L.flatten ++ textPlaceholder.data ∧
          chunkPrefixUpToSplit 2000 (textChunks (wordsOf longWordAbstract)) L ∧
          lenSum L + textPlaceholder.length ≤ 2000) ∧
      ("[...]" : String).data <:+ content.data :=
  abstract_truncation_amended id longWordRecord longWordAbstract rfl
    longWord_collapsed_long
